import Mathlib

/-!
Verification of the note-keeper storage core (`src/notes_backend/src/api/models.py`,
class `NoteStorage`).

The class has two backends selected at construction time:
* the memory backend (`db_path is None`): a Python dict `_notes` from integer id
  to `Note`, plus a counter `_next_id` starting at 1;
* the persistent backend (`db_path` set): a SQLite table
  `notes (id INTEGER PRIMARY KEY, title, content, created_at, updated_at)`.

Shallow embedding choices, each justified against the source:
* Timestamps (`datetime.utcnow()`) are embedded as `Nat`.  Each operation that
  reads the clock (`add_note`, `update_note`) takes the observed time `now` as
  an explicit argument; claims about wall-clock monotonicity become hypotheses
  on the sequence of observed times.
* The Python dict `_notes` is embedded as an insertion-ordered association
  list `List (Nat × Note)`: CPython dicts preserve insertion order,
  assignment to an existing key keeps its position, and `.values()` iterates
  in that order — exactly the behaviour `list_notes` relies on.
* The SQLite table is embedded as a list of rows `List Note` (a row has
  exactly the five note columns, with `Note.id` playing the `id` column).
  `INSERT` without an explicit id on an `INTEGER PRIMARY KEY` column (the
  schema has no `AUTOINCREMENT` keyword) assigns
  `max(existing ids) + 1`, or `1` on an empty table, and that value is what
  `cursor.lastrowid` reports; after the row holding the maximum id is
  deleted, its id is handed out again.  `SELECT ... ORDER BY id` sorts rows
  by the id column.
* `sqlite3` I/O faults are outside the model: every claim below is about the
  non-faulting behaviour, as the spec's error model (§7) propagates faults
  uninterpreted.
-/

namespace NoteKeeper

/-- Embedding of the pydantic `Note` model: id, title, content and the two
timestamps. -/
structure Note where
  id : Nat
  title : String
  content : String
  created_at : Nat
  updated_at : Nat
deriving DecidableEq, Repr

/-- Embedding of the pydantic `NoteCreate` model (the draft): title and
content only. -/
structure NoteCreate where
  title : String
  content : String
deriving DecidableEq, Repr

/-! ### Python dict primitives

The memory backend stores notes in a CPython dict.  We model the dict as an
insertion-ordered association list and the three dict operations the source
uses: subscript assignment, `.get`, and `.pop`. -/

/-- Model of Python `d[k] = v`: replace the value at an existing key in place, else
append the new binding at the end (CPython insertion-order semantics). -/
def dictSet (m : List (Nat × Note)) (k : Nat) (v : Note) : List (Nat × Note) :=
  if (m.find? (fun p => p.1 == k)).isSome then
    m.map (fun p => if p.1 == k then (k, v) else p)
  else
    m ++ [(k, v)]

/-- Model of Python `d.get(k)`: the value bound to `k`, if any. -/
def dictGet (m : List (Nat × Note)) (k : Nat) : Option Note :=
  (m.find? (fun p => p.1 == k)).map Prod.snd

/-- Model of Python `d.pop(k, None)` restricted to its effect on the dict: all
bindings except `k`, in unchanged order. -/
def dictErase (m : List (Nat × Note)) (k : Nat) : List (Nat × Note) :=
  m.filter (fun p => !(p.1 == k))

/-! ### The memory backend -/

/-- State of a memory-backed `NoteStorage`: the `_notes` dict and the
`_next_id` counter. -/
structure MemStorage where
  notes : List (Nat × Note)
  next_id : Nat
deriving DecidableEq, Repr

/-- Source `NoteStorage.__init__` with `db_path = None`: empty dict, counter 1. -/
def MemStorage.init : MemStorage := ⟨[], 1⟩

/-- Source `NoteStorage.add_note`, memory branch: build the note with
`id = _next_id` and both timestamps `now`, store it under `_next_id`,
increment the counter, return the note. -/
def MemStorage.add_note (s : MemStorage) (nc : NoteCreate) (now : Nat) :
    Note × MemStorage :=
  let note : Note := ⟨s.next_id, nc.title, nc.content, now, now⟩
  (note, ⟨dictSet s.notes s.next_id note, s.next_id + 1⟩)

/-- Source `NoteStorage.get_note`, memory branch: `self._notes.get(note_id)`. -/
def MemStorage.get_note (s : MemStorage) (id : Nat) : Option Note :=
  dictGet s.notes id

/-- Source `NoteStorage.list_notes`, memory branch: `list(self._notes.values())`,
the stored notes in dict insertion order. -/
def MemStorage.list_notes (s : MemStorage) : List Note :=
  s.notes.map Prod.snd

/-- Source `NoteStorage.update_note`, memory branch: look the note up; if present,
build a new note keeping `id` and `created_at`, taking `title`/`content`
from the draft and `updated_at = now`, store it back under the same key and
return it; else return `None` and leave the state alone. -/
def MemStorage.update_note (s : MemStorage) (id : Nat) (nc : NoteCreate)
    (now : Nat) : Option Note × MemStorage :=
  match dictGet s.notes id with
  | some note =>
      let updated : Note := ⟨note.id, nc.title, nc.content, note.created_at, now⟩
      (some updated, ⟨dictSet s.notes id updated, s.next_id⟩)
  | none => (none, s)

/-- Source `NoteStorage.delete_note`, memory branch:
`self._notes.pop(note_id, None) is not None`. -/
def MemStorage.delete_note (s : MemStorage) (id : Nat) : Bool × MemStorage :=
  match dictGet s.notes id with
  | some _ => (true, ⟨dictErase s.notes id, s.next_id⟩)
  | none => (false, s)

/-! ### The persistent (SQLite) backend

A table row carries exactly the five note columns, so a row is embedded as a
`Note` (timestamps are stored as ISO text and parsed back by
`datetime.fromisoformat`, which inverts `isoformat`, so the round-trip is the
identity and the `Nat` embedding is unaffected). -/

/-- State of a SQLite-backed `NoteStorage`: the rows of the `notes` table. -/
structure DbStorage where
  rows : List Note
deriving DecidableEq, Repr

/-- Source `NoteStorage.__init__` with a fresh `db_path`: `CREATE TABLE` leaves an
empty table. -/
def DbStorage.init : DbStorage := ⟨[]⟩

/-- The largest id present in the table, 0 if empty: the basis of SQLite
rowid assignment for an `INTEGER PRIMARY KEY` column without
`AUTOINCREMENT`. -/
def DbStorage.maxId (s : DbStorage) : Nat :=
  s.rows.foldr (fun n m => max n.id m) 0

/-- Source `NoteStorage.add_note`, SQLite branch: `INSERT` assigns
`id = maxId + 1` (`cursor.lastrowid`), and the returned note is rebuilt in
Python from that id, the draft fields and `now`. -/
def DbStorage.add_note (s : DbStorage) (nc : NoteCreate) (now : Nat) :
    Note × DbStorage :=
  let note : Note := ⟨s.maxId + 1, nc.title, nc.content, now, now⟩
  (note, ⟨s.rows ++ [note]⟩)

/-- Source `NoteStorage.get_note`, SQLite branch: `SELECT ... WHERE id = ?` plus
`fetchone`; `None` when no row matches. -/
def DbStorage.get_note (s : DbStorage) (id : Nat) : Option Note :=
  s.rows.find? (fun n => n.id == id)

/-- Source `NoteStorage.list_notes`, SQLite branch: `SELECT ... ORDER BY id`, every
row sorted ascending by the id column. -/
def DbStorage.list_notes (s : DbStorage) : List Note :=
  List.insertionSort (fun a b : Note => a.id ≤ b.id) s.rows

/-- Source `NoteStorage.update_note`, SQLite branch: `UPDATE` sets title, content
and `updated_at` on every row with the given id (`created_at` is not in the
SET list, so it is preserved); when `rowcount > 0` the row is re-read and
returned, else `None`. -/
def DbStorage.update_note (s : DbStorage) (id : Nat) (nc : NoteCreate)
    (now : Nat) : Option Note × DbStorage :=
  if (s.rows.find? (fun n => n.id == id)).isSome then
    let rows := s.rows.map (fun n =>
      if n.id == id then ⟨n.id, nc.title, nc.content, n.created_at, now⟩ else n)
    (rows.find? (fun n => n.id == id), ⟨rows⟩)
  else
    (none, s)

/-- Source `NoteStorage.delete_note`, SQLite branch: `DELETE ... WHERE id = ?`,
result `rowcount > 0`. -/
def DbStorage.delete_note (s : DbStorage) (id : Nat) : Bool × DbStorage :=
  ((s.rows.find? (fun n => n.id == id)).isSome,
   ⟨s.rows.filter (fun n => !(n.id == id))⟩)

/-! ## Operation traces

Claims about "every sequence of operations on one store instance" are stated
over lists of operations run from the freshly constructed state.  Each
clock-reading operation carries the time `datetime.utcnow()` observed when it
ran. -/

/-- One call on the store interface, with the time observed by the calls that
read the clock. -/
inductive Op where
  | add (nc : NoteCreate) (now : Nat)
  | get (id : Nat)
  | listAll
  | update (id : Nat) (nc : NoteCreate) (now : Nat)
  | delete (id : Nat)
deriving DecidableEq, Repr

/-- Clock readings taken by a single operation. -/
def Op.times : Op → List Nat
  | .add _ now => [now]
  | .update _ _ now => [now]
  | _ => []

/-- Clock readings taken along a trace, in order. -/
def opsTimes : List Op → List Nat
  | [] => []
  | op :: rest => op.times ++ opsTimes rest

/-- State transition of the memory backend under one operation (reads do not
change the state). -/
def MemStorage.step (s : MemStorage) : Op → MemStorage
  | .add nc now => (s.add_note nc now).2
  | .get _ => s
  | .listAll => s
  | .update id nc now => (s.update_note id nc now).2
  | .delete id => (s.delete_note id).2

/-- Memory-backend state after running a trace from `s`. -/
def MemStorage.runFrom (s : MemStorage) : List Op → MemStorage
  | [] => s
  | op :: rest => (s.step op).runFrom rest

/-- Ids handed out by the `add` calls of a trace run from `s` on the memory
backend, in call order. -/
def MemStorage.addedIds (s : MemStorage) : List Op → List Nat
  | [] => []
  | .add nc now :: rest => s.next_id :: (s.step (.add nc now)).addedIds rest
  | .get i :: rest => (s.step (.get i)).addedIds rest
  | .listAll :: rest => (s.step .listAll).addedIds rest
  | .update i nc now :: rest => (s.step (.update i nc now)).addedIds rest
  | .delete i :: rest => (s.step (.delete i)).addedIds rest

/-- State transition of the SQLite backend under one operation. -/
def DbStorage.step (s : DbStorage) : Op → DbStorage
  | .add nc now => (s.add_note nc now).2
  | .get _ => s
  | .listAll => s
  | .update id nc now => (s.update_note id nc now).2
  | .delete id => (s.delete_note id).2

/-- SQLite-backend state after running a trace from `s`. -/
def DbStorage.runFrom (s : DbStorage) : List Op → DbStorage
  | [] => s
  | op :: rest => (s.step op).runFrom rest

/-- Ids handed out by the `add` calls of a trace run from `s` on the SQLite
backend (`cursor.lastrowid` of each `INSERT`), in call order. -/
def DbStorage.addedIds (s : DbStorage) : List Op → List Nat
  | [] => []
  | .add nc now :: rest => (s.maxId + 1) :: (s.step (.add nc now)).addedIds rest
  | .get i :: rest => (s.step (.get i)).addedIds rest
  | .listAll :: rest => (s.step .listAll).addedIds rest
  | .update i nc now :: rest => (s.step (.update i nc now)).addedIds rest
  | .delete i :: rest => (s.step (.delete i)).addedIds rest

/-! ## Helper lemmas about the dict model -/

theorem mem_of_mem_dictSet {m : List (Nat × Note)} {k : Nat} {v : Note}
    {p : Nat × Note} (hp : p ∈ dictSet m k v) : p = (k, v) ∨ p ∈ m := by
  unfold dictSet at hp
  split at hp
  · rcases List.mem_map.mp hp with ⟨q, hq, hmap⟩
    by_cases h : q.1 = k
    · simp [h] at hmap
      exact Or.inl hmap.symm
    · simp [h] at hmap
      exact Or.inr (hmap ▸ hq)
  · rcases List.mem_append.mp hp with h | h
    · exact Or.inr h
    · simp at h
      exact Or.inl h

theorem find_replaceAll (m : List (Nat × Note)) (k : Nat) (v : Note) :
    (m.map (fun p => if p.1 == k then (k, v) else p)).find? (fun p => p.1 == k)
      = ((m.find? (fun p => p.1 == k)).map (fun _ => (k, v))) := by
  induction m with
  | nil => rfl
  | cons a m ih =>
      by_cases ha : a.1 = k
      · simp [List.find?_cons, ha]
      · simp only [List.map_cons]
        rw [List.find?_cons_of_neg, List.find?_cons_of_neg, ih] <;> simp [ha]

theorem dictGet_dictSet (m : List (Nat × Note)) (k : Nat) (v : Note) :
    dictGet (dictSet m k v) k = some v := by
  unfold dictGet dictSet
  split
  · rename_i h
    rw [find_replaceAll]
    rcases Option.isSome_iff_exists.mp h with ⟨p, hp⟩
    rw [hp]
    rfl
  · rename_i h
    rw [List.find?_append]
    rw [Option.not_isSome_iff_eq_none] at h
    rw [h]
    simp

theorem mem_of_mem_dictErase {m : List (Nat × Note)} {k : Nat}
    {p : Nat × Note} (hp : p ∈ dictErase m k) : p ∈ m :=
  List.mem_of_mem_filter hp

theorem dictGet_of_mem {m : List (Nat × Note)}
    (h : (m.map Prod.fst).Pairwise (· ≠ ·))
    {p : Nat × Note} (hp : p ∈ m) : dictGet m p.1 = some p.2 := by
  induction m with
  | nil => cases hp
  | cons a m ih =>
      rw [List.map_cons, List.pairwise_cons] at h
      rcases List.mem_cons.mp hp with rfl | hp'
      · unfold dictGet
        rw [List.find?_cons_of_pos _ (by simp)]
        rfl
      · have hne : a.1 ≠ p.1 := h.1 p.1 (List.mem_map.mpr ⟨p, hp', rfl⟩)
        unfold dictGet
        rw [List.find?_cons_of_neg _ (by simpa using fun hc => hne hc)]
        exact ih h.2 hp'

theorem dictGet_mem {m : List (Nat × Note)} {k : Nat} {v : Note}
    (h : dictGet m k = some v) : (k, v) ∈ m := by
  unfold dictGet at h
  rcases Option.map_eq_some'.mp h with ⟨p, hp, hv⟩
  have h1 : p.1 = k := by simpa using List.find?_some hp
  have h2 : p ∈ m := List.mem_of_find?_eq_some hp
  have : p = (k, v) := by
    cases p
    simp only at h1 hv
    simp [h1, hv]
  exact this ▸ h2

/-! ## Memory-backend invariants -/

/-- Structural invariant of the memory backend: every key of the `_notes`
dict is below the `_next_id` counter, and the note stored under a key
carries that key as its `id` field. -/
def MemIdInv (s : MemStorage) : Prop :=
  ∀ p ∈ s.notes, p.1 < s.next_id ∧ p.2.id = p.1

instance (s : MemStorage) : Decidable (MemIdInv s) := by
  unfold MemIdInv
  infer_instance

/-- Ordering invariant of the memory backend: the dict keys, in insertion
order, are strictly increasing. -/
def MemSortedInv (s : MemStorage) : Prop :=
  (s.notes.map Prod.fst).Pairwise (· < ·)

theorem memIdInv_init : MemIdInv MemStorage.init := by
  intro p hp
  cases hp

theorem memSortedInv_init : MemSortedInv MemStorage.init :=
  List.Pairwise.nil

theorem memIdInv_step {s : MemStorage} (h : MemIdInv s) (op : Op) :
    MemIdInv (s.step op) := by
  cases op with
  | add nc now =>
      intro p hp
      simp only [MemStorage.step, MemStorage.add_note] at hp
      rcases mem_of_mem_dictSet hp with rfl | hp'
      · exact ⟨Nat.lt_succ_self _, rfl⟩
      · exact ⟨Nat.lt_succ_of_lt (h p hp').1, (h p hp').2⟩
  | get id => exact h
  | listAll => exact h
  | update id nc now =>
      intro p hp
      simp only [MemStorage.step] at hp ⊢
      cases hd : dictGet s.notes id with
      | none => rw [MemStorage.update_note, hd] at hp ⊢; exact h p hp
      | some note =>
          rw [MemStorage.update_note, hd] at hp ⊢
          simp only at hp ⊢
          rcases mem_of_mem_dictSet hp with rfl | hp'
          · have hmem := h _ (dictGet_mem hd)
            exact ⟨hmem.1, hmem.2⟩
          · exact h p hp'
  | delete id =>
      intro p hp
      simp only [MemStorage.step] at hp ⊢
      cases hd : dictGet s.notes id with
      | none => rw [MemStorage.delete_note, hd] at hp ⊢; exact h p hp
      | some note =>
          rw [MemStorage.delete_note, hd] at hp ⊢
          exact h p (mem_of_mem_dictErase hp)

theorem dictSet_keys_of_found (m : List (Nat × Note)) (k : Nat) (v : Note)
    (h : (m.find? (fun p => p.1 == k)).isSome) :
    (dictSet m k v).map Prod.fst = m.map Prod.fst := by
  unfold dictSet
  rw [if_pos h]
  rw [List.map_map]
  apply List.map_congr_left
  intro p _
  by_cases hpk : p.1 = k
  · simp [hpk]
  · simp [hpk]

theorem memSortedInv_step {s : MemStorage} (hid : MemIdInv s)
    (h : MemSortedInv s) (op : Op) : MemSortedInv (s.step op) := by
  cases op with
  | add nc now =>
      unfold MemSortedInv
      simp only [MemStorage.step, MemStorage.add_note]
      have hnone : s.notes.find? (fun p => p.1 == s.next_id) = none := by
        rw [List.find?_eq_none]
        intro p hp
        simp only [beq_iff_eq]
        exact Nat.ne_of_lt (hid p hp).1
      unfold dictSet
      rw [hnone]
      simp only [Option.isSome_none, Bool.false_eq_true, if_false, List.map_append]
      rw [List.pairwise_append]
      refine ⟨h, List.pairwise_singleton _ _, ?_⟩
      intro a ha b hb
      simp only [List.map_cons, List.map_nil, List.mem_singleton] at hb
      subst hb
      rcases List.mem_map.mp ha with ⟨p, hp, rfl⟩
      exact (hid p hp).1
  | get id => exact h
  | listAll => exact h
  | update id nc now =>
      unfold MemSortedInv
      simp only [MemStorage.step]
      cases hd : dictGet s.notes id with
      | none => rw [MemStorage.update_note, hd]; exact h
      | some note =>
          rw [MemStorage.update_note, hd]
          simp only
          rw [dictSet_keys_of_found]
          · exact h
          · unfold dictGet at hd
            rcases Option.map_eq_some'.mp hd with ⟨p, hp, _⟩
            rw [hp]
            rfl
  | delete id =>
      unfold MemSortedInv
      simp only [MemStorage.step]
      cases hd : dictGet s.notes id with
      | none => rw [MemStorage.delete_note, hd]; exact h
      | some note =>
          rw [MemStorage.delete_note, hd]
          simp only [dictErase]
          exact List.Pairwise.sublist ((List.filter_sublist _).map _) h

theorem memInv_runFrom (ops : List Op) (s : MemStorage)
    (h1 : MemIdInv s) (h2 : MemSortedInv s) :
    MemIdInv (s.runFrom ops) ∧ MemSortedInv (s.runFrom ops) := by
  induction ops generalizing s with
  | nil => exact ⟨h1, h2⟩
  | cons op rest ih =>
      exact ih (s.step op) (memIdInv_step h1 op) (memSortedInv_step h1 h2 op)

theorem next_id_step_le (s : MemStorage) (op : Op) :
    s.next_id ≤ (s.step op).next_id := by
  cases op with
  | add nc now => exact Nat.le_succ _
  | get id => exact Nat.le_refl _
  | listAll => exact Nat.le_refl _
  | update id nc now =>
      simp only [MemStorage.step]
      cases hd : dictGet s.notes id <;> rw [MemStorage.update_note, hd]
  | delete id =>
      simp only [MemStorage.step]
      cases hd : dictGet s.notes id <;> rw [MemStorage.delete_note, hd]

theorem mem_addedIds_lb (ops : List Op) (s : MemStorage) :
    ∀ i ∈ s.addedIds ops, s.next_id ≤ i := by
  induction ops generalizing s with
  | nil => intro i hi; cases hi
  | cons op rest ih =>
      intro i hi
      have hstep : ∀ j, j ∈ (s.step op).addedIds rest → s.next_id ≤ j :=
        fun j hj => Nat.le_trans (next_id_step_le s op) (ih (s.step op) j hj)
      cases op with
      | add nc now =>
          rw [MemStorage.addedIds] at hi
          rcases List.mem_cons.mp hi with rfl | hi
          · exact Nat.le_refl _
          · exact hstep i hi
      | get j => rw [MemStorage.addedIds] at hi; exact hstep i hi
      | listAll => rw [MemStorage.addedIds] at hi; exact hstep i hi
      | update j nc now => rw [MemStorage.addedIds] at hi; exact hstep i hi
      | delete j => rw [MemStorage.addedIds] at hi; exact hstep i hi

theorem mem_addedIds_sorted (ops : List Op) (s : MemStorage) :
    (s.addedIds ops).Pairwise (· < ·) := by
  induction ops generalizing s with
  | nil => exact List.Pairwise.nil
  | cons op rest ih =>
      cases op with
      | add nc now =>
          rw [MemStorage.addedIds, List.pairwise_cons]
          refine ⟨?_, ih (s.step _)⟩
          intro b hb
          have hb' := mem_addedIds_lb rest (s.step _) b hb
          simp only [MemStorage.step, MemStorage.add_note] at hb'
          omega
      | get j => rw [MemStorage.addedIds]; exact ih _
      | listAll => rw [MemStorage.addedIds]; exact ih _
      | update j nc now => rw [MemStorage.addedIds]; exact ih _
      | delete j => rw [MemStorage.addedIds]; exact ih _

/-! ## SQLite-backend invariants -/

theorem mem_le_foldr_max {l : List Note} {n : Note} (h : n ∈ l) (a : Nat) :
    n.id ≤ l.foldr (fun x m => max x.id m) a := by
  induction l with
  | nil => cases h
  | cons x l ih =>
      rcases List.mem_cons.mp h with rfl | h'
      · exact le_max_left _ _
      · exact le_trans (ih h') (le_max_right _ _)

theorem db_mem_le_maxId {s : DbStorage} {n : Note} (h : n ∈ s.rows) :
    n.id ≤ s.maxId :=
  mem_le_foldr_max h 0

theorem foldr_max_of_le {l : List Note} {a : Nat} (h : ∀ x ∈ l, x.id ≤ a) :
    l.foldr (fun x m => max x.id m) a = a := by
  induction l with
  | nil => rfl
  | cons x l ih =>
      rw [List.foldr_cons, ih (fun y hy => h y (List.mem_cons_of_mem x hy))]
      exact max_eq_right (h x (List.mem_cons_self x l))

theorem dbMaxId_add (s : DbStorage) (nc : NoteCreate) (now : Nat) :
    ((s.add_note nc now).2).maxId = s.maxId + 1 := by
  show DbStorage.maxId ⟨s.rows ++ [⟨s.maxId + 1, nc.title, nc.content, now, now⟩]⟩
      = s.maxId + 1
  unfold DbStorage.maxId
  rw [List.foldr_append]
  simp only [List.foldr_cons, List.foldr_nil]
  rw [Nat.max_zero]
  exact foldr_max_of_le (fun x hx => Nat.le_succ_of_le (db_mem_le_maxId hx))

/-- Ordering invariant of the SQLite table: rows are stored in strictly
increasing rowid order (a SQLite table is a B-tree keyed by rowid, and our
model keeps rows in that order: inserts append the fresh maximal id). -/
def DbSortedInv (s : DbStorage) : Prop :=
  (s.rows.map Note.id).Pairwise (· < ·)

theorem dbSortedInv_init : DbSortedInv DbStorage.init :=
  List.Pairwise.nil

theorem dbSortedInv_step {s : DbStorage} (h : DbSortedInv s) (op : Op) :
    DbSortedInv (s.step op) := by
  cases op with
  | add nc now =>
      unfold DbSortedInv at h ⊢
      simp only [DbStorage.step, DbStorage.add_note, List.map_append]
      rw [List.pairwise_append]
      refine ⟨h, by simp, ?_⟩
      intro a ha b hb
      simp only [List.map_cons, List.map_nil, List.mem_singleton] at hb
      subst hb
      rcases List.mem_map.mp ha with ⟨n, hn, rfl⟩
      have hle : n.id ≤ s.maxId := db_mem_le_maxId hn
      omega
  | get j => exact h
  | listAll => exact h
  | update j nc now =>
      unfold DbSortedInv at h ⊢
      simp only [DbStorage.step, DbStorage.update_note]
      split
      · simp only [List.map_map]
        have heq : s.rows.map (Note.id ∘ fun n =>
            if n.id == j then ⟨n.id, nc.title, nc.content, n.created_at, now⟩ else n)
            = s.rows.map Note.id := by
          apply List.map_congr_left
          intro n _
          by_cases hn : n.id = j <;> simp [hn]
        rw [heq]
        exact h
      · exact h
  | delete j =>
      unfold DbSortedInv at h ⊢
      simp only [DbStorage.step, DbStorage.delete_note]
      exact List.Pairwise.sublist ((List.filter_sublist _).map _) h

theorem dbSortedInv_runFrom (ops : List Op) (s : DbStorage)
    (h : DbSortedInv s) : DbSortedInv (s.runFrom ops) := by
  induction ops generalizing s with
  | nil => exact h
  | cons op rest ih => exact ih (s.step op) (dbSortedInv_step h op)

theorem db_addedIds_lb_addOnly (adds : List (NoteCreate × Nat)) (s : DbStorage) :
    ∀ i ∈ s.addedIds (adds.map (fun a => Op.add a.1 a.2)), s.maxId + 1 ≤ i := by
  induction adds generalizing s with
  | nil => intro i hi; cases hi
  | cons a rest ih =>
      intro i hi
      rw [List.map_cons, DbStorage.addedIds] at hi
      rcases List.mem_cons.mp hi with rfl | hi
      · exact Nat.le_refl _
      · have hrec := ih (s.step (Op.add a.1 a.2)) i hi
        have hm : (s.step (Op.add a.1 a.2)).maxId = s.maxId + 1 :=
          dbMaxId_add s a.1 a.2
        omega

theorem db_addedIds_sorted_addOnly (adds : List (NoteCreate × Nat))
    (s : DbStorage) :
    (s.addedIds (adds.map (fun a => Op.add a.1 a.2))).Pairwise (· < ·) := by
  induction adds generalizing s with
  | nil => exact List.Pairwise.nil
  | cons a rest ih =>
      rw [List.map_cons, DbStorage.addedIds, List.pairwise_cons]
      refine ⟨?_, ih (s.step _)⟩
      intro b hb
      have hlb := db_addedIds_lb_addOnly rest (s.step (Op.add a.1 a.2)) b hb
      have hm : (s.step (Op.add a.1 a.2)).maxId = s.maxId + 1 :=
        dbMaxId_add s a.1 a.2
      omega

/-! ## Timestamp invariants

The clock in the source is `datetime.utcnow()`: each clock-reading call in a
trace observes one time, and a monotone wall clock means the observed times
are pairwise nondecreasing in trace order. -/

/-- Every stored note of the memory backend has consistent stamps bounded
by `t`. -/
def MemStampsLE (s : MemStorage) (t : Nat) : Prop :=
  ∀ p ∈ s.notes, p.2.created_at ≤ p.2.updated_at ∧ p.2.updated_at ≤ t

/-- Every stored row of the SQLite backend has consistent stamps bounded
by `t`. -/
def DbStampsLE (s : DbStorage) (t : Nat) : Prop :=
  ∀ n ∈ s.rows, n.created_at ≤ n.updated_at ∧ n.updated_at ≤ t

theorem le_foldl_max (l : List Nat) (t : Nat) : t ≤ l.foldl max t := by
  induction l generalizing t with
  | nil => exact Nat.le_refl _
  | cons a l ih => exact Nat.le_trans (Nat.le_max_left t a) (ih (max t a))

theorem mem_le_foldl_max {l : List Nat} {w : Nat} (h : w ∈ l) (t : Nat) :
    w ≤ l.foldl max t := by
  induction l generalizing t with
  | nil => cases h
  | cons a l ih =>
      rcases List.mem_cons.mp h with rfl | h'
      · exact Nat.le_trans (Nat.le_max_right t w) (le_foldl_max l (max t w))
      · exact ih h' (max t a)

theorem foldl_max_le {l : List Nat} {t w : Nat} (ht : t ≤ w)
    (hl : ∀ v ∈ l, v ≤ w) : l.foldl max t ≤ w := by
  induction l generalizing t with
  | nil => exact ht
  | cons a l ih =>
      exact ih (Nat.max_le.mpr ⟨ht, hl a (List.mem_cons_self a l)⟩)
        (fun v hv => hl v (List.mem_cons_of_mem a hv))

theorem memStamps_step {s : MemStorage} {t u : Nat} (h : MemStampsLE s t)
    (htu : t ≤ u) {op : Op} (hop : ∀ w ∈ op.times, t ≤ w ∧ w ≤ u) :
    MemStampsLE (s.step op) u := by
  have hweak : MemStampsLE s u :=
    fun p hp => ⟨(h p hp).1, Nat.le_trans (h p hp).2 htu⟩
  cases op with
  | add nc now =>
      intro p hp
      simp only [MemStorage.step, MemStorage.add_note] at hp
      rcases mem_of_mem_dictSet hp with rfl | hp'
      · exact ⟨Nat.le_refl _, (hop now (List.mem_singleton_self now)).2⟩
      · exact hweak p hp'
  | get j => exact hweak
  | listAll => exact hweak
  | update j nc now =>
      intro p hp
      simp only [MemStorage.step] at hp
      cases hd : dictGet s.notes j with
      | none => rw [MemStorage.update_note, hd] at hp; exact hweak p hp
      | some note =>
          rw [MemStorage.update_note, hd] at hp
          simp only at hp
          rcases mem_of_mem_dictSet hp with rfl | hp'
          · have hnote := h _ (dictGet_mem hd)
            have hnow := hop now (List.mem_singleton_self now)
            exact ⟨Nat.le_trans (Nat.le_trans hnote.1 hnote.2) hnow.1, hnow.2⟩
          · exact hweak p hp'
  | delete j =>
      intro p hp
      simp only [MemStorage.step] at hp
      cases hd : dictGet s.notes j with
      | none => rw [MemStorage.delete_note, hd] at hp; exact hweak p hp
      | some note =>
          rw [MemStorage.delete_note, hd] at hp
          exact hweak p (mem_of_mem_dictErase hp)

theorem dbStamps_step {s : DbStorage} {t u : Nat} (h : DbStampsLE s t)
    (htu : t ≤ u) {op : Op} (hop : ∀ w ∈ op.times, t ≤ w ∧ w ≤ u) :
    DbStampsLE (s.step op) u := by
  have hweak : DbStampsLE s u :=
    fun n hn => ⟨(h n hn).1, Nat.le_trans (h n hn).2 htu⟩
  cases op with
  | add nc now =>
      intro n hn
      simp only [DbStorage.step, DbStorage.add_note] at hn
      rcases List.mem_append.mp hn with hn' | hn'
      · exact hweak n hn'
      · rcases List.mem_singleton.mp hn' with rfl
        exact ⟨Nat.le_refl _, (hop now (List.mem_singleton_self now)).2⟩
  | get j => exact hweak
  | listAll => exact hweak
  | update j nc now =>
      intro n hn
      simp only [DbStorage.step, DbStorage.update_note] at hn
      split at hn
      · simp only at hn
        rcases List.mem_map.mp hn with ⟨x, hx, rfl⟩
        have hx' := h x hx
        have hnow := hop now (List.mem_singleton_self now)
        by_cases hxj : x.id = j
        · simp only [hxj, beq_self_eq_true, if_true]
          exact ⟨Nat.le_trans (Nat.le_trans hx'.1 hx'.2) hnow.1, hnow.2⟩
        · simp only [beq_iff_eq, hxj, if_false]
          exact ⟨hx'.1, Nat.le_trans hx'.2 htu⟩
      · exact hweak n hn
  | delete j =>
      intro n hn
      simp only [DbStorage.step, DbStorage.delete_note] at hn
      exact hweak n (List.mem_of_mem_filter hn)

theorem memStamps_runFrom (ops : List Op) (s : MemStorage) (t : Nat)
    (h : MemStampsLE s t) (hlb : ∀ w ∈ opsTimes ops, t ≤ w)
    (hsort : (opsTimes ops).Pairwise (· ≤ ·)) :
    MemStampsLE (s.runFrom ops) ((opsTimes ops).foldl max t) := by
  induction ops generalizing s t with
  | nil => exact h
  | cons op rest ih =>
      rw [opsTimes] at hlb hsort ⊢
      rw [List.foldl_append]
      rcases List.pairwise_append.mp hsort with ⟨_, hsrest, hcross⟩
      have hstep : MemStampsLE (s.step op) (op.times.foldl max t) :=
        memStamps_step h (le_foldl_max _ _)
          (fun w hw => ⟨hlb w (List.mem_append_left _ hw), mem_le_foldl_max hw t⟩)
      exact ih (s.step op) (op.times.foldl max t) hstep
        (fun w hw => foldl_max_le (hlb w (List.mem_append_right _ hw))
          (fun v hv => hcross v hv w hw))
        hsrest

theorem dbStamps_runFrom (ops : List Op) (s : DbStorage) (t : Nat)
    (h : DbStampsLE s t) (hlb : ∀ w ∈ opsTimes ops, t ≤ w)
    (hsort : (opsTimes ops).Pairwise (· ≤ ·)) :
    DbStampsLE (s.runFrom ops) ((opsTimes ops).foldl max t) := by
  induction ops generalizing s t with
  | nil => exact h
  | cons op rest ih =>
      rw [opsTimes] at hlb hsort ⊢
      rw [List.foldl_append]
      rcases List.pairwise_append.mp hsort with ⟨_, hsrest, hcross⟩
      have hstep : DbStampsLE (s.step op) (op.times.foldl max t) :=
        dbStamps_step h (le_foldl_max _ _)
          (fun w hw => ⟨hlb w (List.mem_append_left _ hw), mem_le_foldl_max hw t⟩)
      exact ih (s.step op) (op.times.foldl max t) hstep
        (fun w hw => foldl_max_le (hlb w (List.mem_append_right _ hw))
          (fun v hv => hcross v hv w hw))
        hsrest

/-! ## Remaining helpers -/

theorem dictGet_dictErase (m : List (Nat × Note)) (k : Nat) :
    dictGet (dictErase m k) k = none := by
  unfold dictGet dictErase
  have hfind : (m.filter (fun p => !(p.1 == k))).find? (fun p => p.1 == k)
      = none := by
    rw [List.find?_eq_none]
    intro x hx
    have hx' := List.of_mem_filter hx
    simp only [Bool.not_eq_eq_eq_not, Bool.not_true] at hx' ⊢
    simp [hx']
  rw [hfind]
  rfl

theorem db_find_filter_ne (rows : List Note) (id : Nat) :
    (rows.filter (fun n => !(n.id == id))).find? (fun n => n.id == id)
      = none := by
  rw [List.find?_eq_none]
  intro x hx
  have hx' := List.of_mem_filter hx
  simp only [Bool.not_eq_eq_eq_not, Bool.not_true] at hx' ⊢
  simp [hx']

theorem find_of_mem_rows {l : List Note} (h : (l.map Note.id).Pairwise (· ≠ ·))
    {n : Note} (hn : n ∈ l) : l.find? (fun x => x.id == n.id) = some n := by
  induction l with
  | nil => cases hn
  | cons a l ih =>
      rw [List.map_cons, List.pairwise_cons] at h
      rcases List.mem_cons.mp hn with rfl | hn'
      · exact List.find?_cons_of_pos _ (by simp)
      · have hne : a.id ≠ n.id := h.1 n.id (List.mem_map.mpr ⟨n, hn', rfl⟩)
        rw [List.find?_cons_of_neg _ (by simpa using hne)]
        exact ih h.2 hn'

/-! ## The claims -/

/-- C7: on construction the memory backend's map is empty and its counter
`next_id` is 1; each memory-backend add assigns `id = next_id` and then
increments the counter, so on a fresh memory-backed store the first add
returns id 1 and the second id 2. -/
theorem claim_C7 :
    MemStorage.init.notes = [] ∧ MemStorage.init.next_id = 1 ∧
    (∀ (s : MemStorage) (nc : NoteCreate) (now : Nat),
      (s.add_note nc now).1.id = s.next_id ∧
      (s.add_note nc now).2.next_id = s.next_id + 1) ∧
    (∀ (d1 d2 : NoteCreate) (t1 t2 : Nat),
      (MemStorage.init.add_note d1 t1).1.id = 1 ∧
      (((MemStorage.init.add_note d1 t1).2).add_note d2 t2).1.id = 2) :=
  ⟨rfl, rfl, fun _ _ _ => ⟨rfl, rfl⟩, fun _ _ _ _ => ⟨rfl, rfl⟩⟩

/-- C3: for every draft `d` and every store state, on both backends, `get`
applied to the id of the note returned by `add d` returns that note, whose
title and content are the draft's. -/
theorem claim_C3 (ms : MemStorage) (ds : DbStorage) (d : NoteCreate)
    (now : Nat) :
    ((ms.add_note d now).2.get_note (ms.add_note d now).1.id
        = some (ms.add_note d now).1 ∧
      (ms.add_note d now).1.title = d.title ∧
      (ms.add_note d now).1.content = d.content) ∧
    ((ds.add_note d now).2.get_note (ds.add_note d now).1.id
        = some (ds.add_note d now).1 ∧
      (ds.add_note d now).1.title = d.title ∧
      (ds.add_note d now).1.content = d.content) := by
  refine ⟨⟨?_, rfl, rfl⟩, ⟨?_, rfl, rfl⟩⟩
  · show dictGet (dictSet ms.notes ms.next_id _) ms.next_id = some _
    exact dictGet_dictSet _ _ _
  · show (ds.rows ++ [(ds.add_note d now).1]).find?
        (fun n : Note => n.id == ds.maxId + 1) = some (ds.add_note d now).1
    rw [List.find?_append]
    have hnone : ds.rows.find? (fun n : Note => n.id == ds.maxId + 1) = none := by
      rw [List.find?_eq_none]
      intro x hx
      have := db_mem_le_maxId hx
      simp only [beq_iff_eq]
      omega
    rw [hnone]
    simp only [Option.none_or]
    exact List.find?_cons_of_pos _ (by simp [DbStorage.add_note])

/-- C4: on both backends `delete id` returns true exactly when a note with
that id existed; after a delete, `get id` reports not-found and a second
`delete id` returns false (deleting a nonexistent id is not an error, it
just returns false). -/
theorem claim_C4 (ms : MemStorage) (ds : DbStorage) (id : Nat) :
    ((ms.delete_note id).1 = true ↔ (ms.get_note id).isSome = true) ∧
    ((ms.delete_note id).2.get_note id = none) ∧
    (((ms.delete_note id).2.delete_note id).1 = false) ∧
    ((ds.delete_note id).1 = true ↔ (ds.get_note id).isSome = true) ∧
    ((ds.delete_note id).2.get_note id = none) ∧
    (((ds.delete_note id).2.delete_note id).1 = false) := by
  have hmg : (ms.delete_note id).2.get_note id = none := by
    cases hd : dictGet ms.notes id with
    | none =>
        rw [MemStorage.delete_note, hd]
        exact hd
    | some note =>
        rw [MemStorage.delete_note, hd]
        exact dictGet_dictErase _ _
  have hdg : (ds.delete_note id).2.get_note id = none := by
    show (ds.rows.filter (fun n => !(n.id == id))).find? (fun n => n.id == id)
        = none
    exact db_find_filter_ne _ _
  refine ⟨?_, hmg, ?_, ?_, hdg, ?_⟩
  · cases hd : dictGet ms.notes id with
    | none => rw [MemStorage.delete_note, hd]; simp [MemStorage.get_note, hd]
    | some note => rw [MemStorage.delete_note, hd]; simp [MemStorage.get_note, hd]
  · have h2 : dictGet (ms.delete_note id).2.notes id = none := hmg
    rw [MemStorage.delete_note, h2]
  · show ((ds.rows.find? (fun n => n.id == id)).isSome = true ↔ _)
    rfl
  · show ((ds.delete_note id).2.rows.find? (fun n => n.id == id)).isSome = false
    have := hdg
    rw [show (ds.delete_note id).2.get_note id
        = (ds.delete_note id).2.rows.find? (fun n => n.id == id) from rfl] at this
    rw [this]
    rfl

/-- C6: on both backends, for an id with no note in the store, `get` returns
`None` and `update` returns `None` (and `delete` returns false): not-found
is a first-class result, not an exception — the operations are total
functions in the model, matching the exception-free source paths. -/
theorem claim_C6 (ms : MemStorage) (ds : DbStorage) (id : Nat)
    (d : NoteCreate) (now : Nat)
    (hm : ms.get_note id = none) (hd : ds.get_note id = none) :
    (ms.update_note id d now).1 = none ∧ (ms.delete_note id).1 = false ∧
    (ds.update_note id d now).1 = none ∧ (ds.delete_note id).1 = false := by
  have hm' : dictGet ms.notes id = none := hm
  have hd' : ds.rows.find? (fun n => n.id == id) = none := hd
  refine ⟨?_, ?_, ?_, ?_⟩
  · rw [MemStorage.update_note, hm']
  · rw [MemStorage.delete_note, hm']
  · rw [DbStorage.update_note, hd']
    rfl
  · show (ds.rows.find? (fun n => n.id == id)).isSome = false
    rw [hd']
    rfl

theorem claim_C6_witness :
    ((⟨[], 5⟩ : MemStorage).update_note 3 ⟨"t", "c"⟩ 7).1 = none ∧
    ((⟨[], 5⟩ : MemStorage).delete_note 3).1 = false ∧
    ((⟨[]⟩ : DbStorage).update_note 3 ⟨"t", "c"⟩ 7).1 = none ∧
    ((⟨[]⟩ : DbStorage).delete_note 3).1 = false :=
  claim_C6 ⟨[], 5⟩ ⟨[]⟩ 3 ⟨"t", "c"⟩ 7 (by decide) (by decide)

/-- C9: on both backends, `update` and `delete` on an id with no note leave
the entire store state unchanged — the not-found outcome has no side
effects. -/
theorem claim_C9 (ms : MemStorage) (ds : DbStorage) (id : Nat)
    (d : NoteCreate) (now : Nat)
    (hm : ms.get_note id = none) (hd : ds.get_note id = none) :
    (ms.update_note id d now).2 = ms ∧ (ms.delete_note id).2 = ms ∧
    (ds.update_note id d now).2 = ds ∧ (ds.delete_note id).2 = ds := by
  have hm' : dictGet ms.notes id = none := hm
  have hd' : ds.rows.find? (fun n => n.id == id) = none := hd
  refine ⟨?_, ?_, ?_, ?_⟩
  · rw [MemStorage.update_note, hm']
  · rw [MemStorage.delete_note, hm']
  · rw [DbStorage.update_note, hd']
    rfl
  · show DbStorage.mk (ds.rows.filter (fun n => !(n.id == id))) = ds
    have : ds.rows.filter (fun n => !(n.id == id)) = ds.rows := by
      rw [List.filter_eq_self]
      intro a ha
      rw [List.find?_eq_none] at hd'
      simpa using hd' a ha
    rw [this]

theorem claim_C9_witness :
    ((⟨[(1, ⟨1, "a", "b", 0, 0⟩)], 2⟩ : MemStorage).update_note 3 ⟨"t", "c"⟩ 7).2
        = (⟨[(1, ⟨1, "a", "b", 0, 0⟩)], 2⟩ : MemStorage) ∧
    ((⟨[(1, ⟨1, "a", "b", 0, 0⟩)], 2⟩ : MemStorage).delete_note 3).2
        = (⟨[(1, ⟨1, "a", "b", 0, 0⟩)], 2⟩ : MemStorage) ∧
    ((⟨[⟨1, "a", "b", 0, 0⟩]⟩ : DbStorage).update_note 3 ⟨"t", "c"⟩ 7).2
        = (⟨[⟨1, "a", "b", 0, 0⟩]⟩ : DbStorage) ∧
    ((⟨[⟨1, "a", "b", 0, 0⟩]⟩ : DbStorage).delete_note 3).2
        = (⟨[⟨1, "a", "b", 0, 0⟩]⟩ : DbStorage) :=
  claim_C9 ⟨[(1, ⟨1, "a", "b", 0, 0⟩)], 2⟩ ⟨[⟨1, "a", "b", 0, 0⟩]⟩ 3 ⟨"t", "c"⟩ 7
    (by decide) (by decide)

/-- C10: the memory-backend invariant — every dict key is below `next_id`
and the note stored under a key has that key as its `id` field — holds of
the initial state and is preserved by every one of the five operations. -/
theorem claim_C10 :
    MemIdInv MemStorage.init ∧
    ∀ (s : MemStorage) (op : Op), MemIdInv s → MemIdInv (s.step op) :=
  ⟨memIdInv_init, fun _ op h => memIdInv_step h op⟩

theorem claim_C10_witness :
    MemIdInv (MemStorage.step ⟨[(1, ⟨1, "a", "b", 0, 0⟩)], 2⟩
      (Op.add ⟨"c", "d"⟩ 5)) :=
  claim_C10.2 ⟨[(1, ⟨1, "a", "b", 0, 0⟩)], 2⟩ (Op.add ⟨"c", "d"⟩ 5) (by decide)

/-- C2: on both backends, updating an existing note replaces title and
content with the draft's values, preserves the note's id and `created_at`,
sets `updated_at` to the current time `now` (which under a monotone clock is
at least the previous `updated_at`), returns the updated note, and stores it
so a subsequent get sees it. -/
theorem claim_C2 (ms : MemStorage) (ds : DbStorage) (id : Nat)
    (d : NoteCreate) (now : Nat) (mnote dnote : Note)
    (hm : ms.get_note id = some mnote) (hmt : mnote.updated_at ≤ now)
    (hd : ds.get_note id = some dnote) (hdt : dnote.updated_at ≤ now) :
    ((ms.update_note id d now).1
        = some ⟨mnote.id, d.title, d.content, mnote.created_at, now⟩ ∧
      ((ms.update_note id d now).2).get_note id
        = some ⟨mnote.id, d.title, d.content, mnote.created_at, now⟩ ∧
      mnote.updated_at ≤ now) ∧
    ((ds.update_note id d now).1
        = some ⟨dnote.id, d.title, d.content, dnote.created_at, now⟩ ∧
      ((ds.update_note id d now).2).get_note id
        = some ⟨dnote.id, d.title, d.content, dnote.created_at, now⟩ ∧
      dnote.updated_at ≤ now) := by
  have hm' : dictGet ms.notes id = some mnote := hm
  have hd' : ds.rows.find? (fun n => n.id == id) = some dnote := hd
  have hsome : (ds.rows.find? (fun n => n.id == id)).isSome = true := by
    rw [hd']
    rfl
  have hdbfind : (ds.rows.map (fun n =>
        if n.id == id
        then (⟨n.id, d.title, d.content, n.created_at, now⟩ : Note) else n)).find?
        (fun n => n.id == id)
      = some ⟨dnote.id, d.title, d.content, dnote.created_at, now⟩ := by
    have hpf : ((fun n : Note => n.id == id) ∘ (fun n : Note =>
          if n.id == id
          then (⟨n.id, d.title, d.content, n.created_at, now⟩ : Note) else n))
        = (fun n : Note => n.id == id) := by
      funext n
      by_cases h : n.id = id <;> simp [h]
    rw [List.find?_map, hpf, hd']
    have hid := List.find?_some hd'
    simp only [Option.map_some']
    rw [if_pos hid]
  refine ⟨⟨?_, ?_, hmt⟩, ⟨?_, ?_, hdt⟩⟩
  · rw [MemStorage.update_note, hm']
  · rw [MemStorage.update_note, hm']
    exact dictGet_dictSet _ _ _
  · rw [DbStorage.update_note, if_pos hsome]
    exact hdbfind
  · rw [DbStorage.update_note, if_pos hsome]
    exact hdbfind

theorem claim_C2_witness :
    (((⟨[(1, ⟨1, "a", "b", 0, 0⟩)], 2⟩ : MemStorage).update_note 1 ⟨"t2", "c2"⟩ 3).1
        = some ⟨1, "t2", "c2", 0, 3⟩ ∧
      (((⟨[(1, ⟨1, "a", "b", 0, 0⟩)], 2⟩ : MemStorage).update_note 1 ⟨"t2", "c2"⟩ 3).2).get_note 1
        = some ⟨1, "t2", "c2", 0, 3⟩ ∧
      (0 : Nat) ≤ 3) ∧
    (((⟨[⟨1, "a", "b", 0, 0⟩]⟩ : DbStorage).update_note 1 ⟨"t2", "c2"⟩ 3).1
        = some ⟨1, "t2", "c2", 0, 3⟩ ∧
      (((⟨[⟨1, "a", "b", 0, 0⟩]⟩ : DbStorage).update_note 1 ⟨"t2", "c2"⟩ 3).2).get_note 1
        = some ⟨1, "t2", "c2", 0, 3⟩ ∧
      (0 : Nat) ≤ 3) :=
  claim_C2 ⟨[(1, ⟨1, "a", "b", 0, 0⟩)], 2⟩ ⟨[⟨1, "a", "b", 0, 0⟩]⟩ 1 ⟨"t2", "c2"⟩ 3
    ⟨1, "a", "b", 0, 0⟩ ⟨1, "a", "b", 0, 0⟩ (by decide) (by decide) (by decide)
    (by decide)

/-- C1 as stated is false: on the persistent backend the trace
add, delete 1, add hands out id 1 twice, because the schema's
`INTEGER PRIMARY KEY` column (no `AUTOINCREMENT`) reuses the maximum rowid
after the row holding it is deleted. -/
theorem claim_C1_counterexample :
    ¬ ((DbStorage.init.addedIds
        [Op.add ⟨"a", "x"⟩ 0, Op.delete 1, Op.add ⟨"b", "y"⟩ 1]).Pairwise
        (· ≠ ·)) := by
  decide

/-- C1 amended: for every sequence of operations on one memory-backed store
instance the ids assigned by add are pairwise distinct and never reused; for
the persistent backend this holds for add-only sequences (after a delete of
the largest id, that id can be reassigned). -/
theorem claim_C1_amended (ops : List Op) (adds : List (NoteCreate × Nat)) :
    ((MemStorage.init.addedIds ops).Pairwise (· ≠ ·)) ∧
    ((DbStorage.init.addedIds
        (adds.map (fun a => Op.add a.1 a.2))).Pairwise (· ≠ ·)) :=
  ⟨(mem_addedIds_sorted ops MemStorage.init).imp Nat.ne_of_lt,
   (db_addedIds_sorted_addOnly adds DbStorage.init).imp Nat.ne_of_lt⟩

/-- C5: after any trace from a fresh store, `list` returns exactly the
current notes — on the memory backend `list(self._notes.values())` in dict
insertion order, on the persistent backend the table rows — in strictly
ascending id order on both backends, and a note is listed exactly when `get`
of its id returns it. -/
theorem claim_C5 (ops : List Op) :
    (((MemStorage.runFrom MemStorage.init ops).list_notes.map Note.id).Pairwise
        (· < ·) ∧
      (MemStorage.runFrom MemStorage.init ops).list_notes
        = (MemStorage.runFrom MemStorage.init ops).notes.map Prod.snd ∧
      ∀ n : Note, n ∈ (MemStorage.runFrom MemStorage.init ops).list_notes ↔
        (MemStorage.runFrom MemStorage.init ops).get_note n.id = some n) ∧
    (((DbStorage.runFrom DbStorage.init ops).list_notes.map Note.id).Pairwise
        (· < ·) ∧
      (DbStorage.runFrom DbStorage.init ops).list_notes
        = (DbStorage.runFrom DbStorage.init ops).rows ∧
      ∀ n : Note, n ∈ (DbStorage.runFrom DbStorage.init ops).list_notes ↔
        (DbStorage.runFrom DbStorage.init ops).get_note n.id = some n) := by
  obtain ⟨hid, hsort⟩ :=
    memInv_runFrom ops MemStorage.init memIdInv_init memSortedInv_init
  have hdb : DbSortedInv (DbStorage.runFrom DbStorage.init ops) :=
    dbSortedInv_runFrom ops DbStorage.init dbSortedInv_init
  have hmids : (MemStorage.runFrom MemStorage.init ops).list_notes.map Note.id
      = (MemStorage.runFrom MemStorage.init ops).notes.map Prod.fst := by
    simp only [MemStorage.list_notes, List.map_map]
    exact List.map_congr_left (fun p hp => (hid p hp).2)
  have hdbsorted : List.Sorted (fun a b : Note => a.id ≤ b.id)
      (DbStorage.runFrom DbStorage.init ops).rows := by
    exact List.pairwise_map.mp (hdb.imp Nat.le_of_lt)
  have hdblist : (DbStorage.runFrom DbStorage.init ops).list_notes
      = (DbStorage.runFrom DbStorage.init ops).rows :=
    hdbsorted.insertionSort_eq
  refine ⟨⟨?_, rfl, ?_⟩, ⟨?_, hdblist, ?_⟩⟩
  · rw [hmids]
    exact hsort
  · intro n
    constructor
    · intro hn
      rcases List.mem_map.mp hn with ⟨p, hp, rfl⟩
      show dictGet (MemStorage.runFrom MemStorage.init ops).notes p.2.id
          = some p.2
      rw [(hid p hp).2]
      exact dictGet_of_mem (hsort.imp Nat.ne_of_lt) hp
    · intro hn
      exact List.mem_map.mpr ⟨(n.id, n), dictGet_mem hn, rfl⟩
  · rw [hdblist]
    exact hdb
  · intro n
    rw [hdblist]
    constructor
    · intro hn
      exact find_of_mem_rows ((List.pairwise_map.mpr
        (List.pairwise_map.mp hdb)).imp Nat.ne_of_lt) hn
    · intro hn
      exact List.mem_of_find?_eq_some hn

/-- C8: under a monotone clock (the times observed by the clock-reading
calls of the trace are pairwise nondecreasing in trace order), every note in
the store after any trace from a fresh store satisfies
`created_at <= updated_at`, on both backends; and add establishes it by
setting both stamps to the same `now`. -/
theorem claim_C8 (ops : List Op)
    (hsort : (opsTimes ops).Pairwise (· ≤ ·)) :
    (∀ p ∈ (MemStorage.runFrom MemStorage.init ops).notes,
        p.2.created_at ≤ p.2.updated_at) ∧
    (∀ n ∈ (DbStorage.runFrom DbStorage.init ops).rows,
        n.created_at ≤ n.updated_at) ∧
    (∀ (s : MemStorage) (nc : NoteCreate) (now : Nat),
        (s.add_note nc now).1.created_at = (s.add_note nc now).1.updated_at) ∧
    (∀ (s : DbStorage) (nc : NoteCreate) (now : Nat),
        (s.add_note nc now).1.created_at = (s.add_note nc now).1.updated_at) := by
  have hmem := memStamps_runFrom ops MemStorage.init 0
    (fun p hp => absurd hp (List.not_mem_nil p))
    (fun w _ => Nat.zero_le w) hsort
  have hdb := dbStamps_runFrom ops DbStorage.init 0
    (fun n hn => absurd hn (List.not_mem_nil n))
    (fun w _ => Nat.zero_le w) hsort
  exact ⟨fun p hp => (hmem p hp).1, fun n hn => (hdb n hn).1,
    fun _ _ _ => rfl, fun _ _ _ => rfl⟩

theorem claim_C8_witness :
    (⟨1, "b", "y", 0, 2⟩ : Note).created_at
      ≤ (⟨1, "b", "y", 0, 2⟩ : Note).updated_at :=
  (claim_C8 [Op.add ⟨"a", "x"⟩ 0, Op.update 1 ⟨"b", "y"⟩ 2] (by decide)).1
    (1, ⟨1, "b", "y", 0, 2⟩) (by decide)

end NoteKeeper
